import Mathlib

set_option maxHeartbeats 1000000

/-! Verification of the XML-corpus extraction pipeline (`src/smtag/extract.py`).

The embedding below translates the pipeline into pure Lean definitions:

* XML elements become the inductive `Element` (tag, leading text, children,
  tail text); `lxml.etree.tostring` and the `innertext`/`cleanup` helpers are
  modelled explicitly.
* The celery task queue is modelled away: a batch of extraction tasks is the
  list of their results, in task order (celery groups preserve order).
* `random.random()` is modelled by an explicit stream `draws : Nat → ℚ` of
  uniform draws from `[0, 1)`, consumed one draw per example in program order.
* The filesystem touched by `ExtractorXML.__init__` is modelled by `FS`,
  a set of directory paths and file paths, each path a list of components.
-/

/-- Embedding of an lxml element node: tag name, text before the first child,
child elements, and tail text (the text that follows the element's closing tag,
outside its own markup). Attributes are omitted; they play no role in the
verified properties. -/
inductive Element where
  | mk : String → Option String → List Element → Option String → Element

def Element.tag : Element → String
  | .mk t _ _ _ => t

def Element.text : Element → Option String
  | .mk _ x _ _ => x

def Element.children : Element → List Element
  | .mk _ _ c _ => c

def Element.tail : Element → Option String
  | .mk _ _ _ t => t

def Element.withTail : Element → Option String → Element
  | .mk a b c _, t => .mk a b c t

/-- The `e.tail = None` assignment performed by `_parse_xml_file` on each
matched element when `remove_tail` is set. -/
def clearTail (e : Element) : Element := e.withTail none

mutual
/-- Modelled from the spec: `innertext` lives in the repository's `utils`
module, which is absent from `src/`. Per §4.2 it computes the flattened,
tag-stripped text content of an element: the element's own leading text, then
recursively each child's inner text followed by that child's tail. The
element's own tail lies outside its content. -/
def innertext : Element → String
  | .mk _ text children _ => text.getD "" ++ innertextList children

def innertextList : List Element → String
  | [] => ""
  | c :: cs => innertext c ++ c.tail.getD "" ++ innertextList cs
end

mutual
/-- Model of `lxml.etree.tostring` (external library): serializes an element,
including its tail text, as lxml does. -/
def tostring : Element → String
  | .mk tag text children tail =>
      "<" ++ tag ++ ">" ++ text.getD "" ++ tostringList children
        ++ "</" ++ tag ++ ">" ++ tail.getD ""

def tostringList : List Element → String
  | [] => ""
  | c :: cs => tostring c ++ tostringList cs
end

/-- `_filter` from `extract.py`: return the example unchanged when its length
strictly exceeds `min_length`, otherwise the empty string. -/
def _filter (ex : String) (min_length : Nat) : String :=
  if min_length < ex.length then ex else ""

/-- `_extract_text_from_elements` from `extract.py`. The Punkt sentence
tokenizer is an external collaborator and is passed in as `segment`. A
candidate survives exactly when `_filter` returns a truthy (non-empty)
string, as in the Python `if _filter(...)` tests. -/
def _extract_text_from_elements (segment : String → List String)
    (elements : List Element) (punkt keep_xml : Bool) (min_length : Nat) :
    List String :=
  if keep_xml then
    elements.foldr (fun e acc =>
      let xml_str := tostring e
      let text := innertext e
      if _filter text min_length ≠ "" then xml_str :: acc else acc) []
  else
    elements.foldr (fun e acc =>
      let text := innertext e
      if punkt then
        (segment text).filter (fun s => _filter s min_length ≠ "") ++ acc
      else
        if _filter text min_length ≠ "" then text :: acc else acc) []

/-- One step of whitespace normalization: collapse every maximal run of
whitespace characters to a single space, dropping a run that ends the string. -/
def collapseWs : List Char → List Char
  | [] => []
  | c :: cs =>
    if c.isWhitespace then
      match collapseWs cs with
      | [] => []
      | d :: rest => if d = ' ' then d :: rest else ' ' :: d :: rest
    else c :: collapseWs cs

/-- Modelled from the spec: `cleanup` lives in the repository's `utils`
module, absent from `src/`. Per §4.3 it collapses internal whitespace runs
and strips leading and trailing whitespace (newlines included), so each
example fits on exactly one line. -/
def cleanupChars (l : List Char) : List Char :=
  collapseWs (l.dropWhile Char.isWhitespace)

def cleanup (s : String) : String := ⟨cleanupChars s.data⟩

/-- `_cleanup` from `extract.py`: apply `cleanup` to every example. -/
def _cleanup (examples : List String) : List String :=
  examples.map cleanup

/-- Model of Python `str.strip()` without arguments: remove leading and
trailing whitespace characters. -/
def stripChars (l : List Char) : List Char :=
  (((l.dropWhile Char.isWhitespace).reverse).dropWhile Char.isWhitespace).reverse

def pyStrip (s : String) : String := ⟨stripChars s.data⟩

/-- `save_task` from `extract.py`: append `text.strip()` followed by exactly
one newline to the destination file (modelled by its current contents) and
return the task's result value `1`. -/
def save_task (text : String) (filecontents : String) : String × Nat :=
  (filecontents ++ pyStrip text ++ "\n", 1)

/-- `examples_from_file_task` from `extract.py`, applied to the elements the
XPath selector matched in one source file: optionally clear tails, extract
and filter, then clean up. -/
def examples_from_file_task (segment : String → List String)
    (elements : List Element) (punkt keep_xml remove_tail : Bool)
    (min_length : Nat) : List String :=
  let elements := if remove_tail then elements.map clearTail else elements
  _cleanup (_extract_text_from_elements segment elements punkt keep_xml min_length)

/-- Fuel-bounded batch splitter; the fuel is pinned to the list length by
`chunks` below, which makes the recursion structural. -/
def chunksAux {α : Type} (b : Nat) : Nat → List α → List (List α)
  | _, [] => []
  | 0, _ :: _ => []
  | fuel + 1, x :: xs =>
    if b = 0 then [] else (x :: xs).take b :: chunksAux b fuel ((x :: xs).drop b)

/-- The contiguous batches `filepaths[start:end]` visited by the
`range(0, N, batch_size)` loop in `ExtractorXML._run`. -/
def chunks {α : Type} (b : Nat) (l : List α) : List (List α) :=
  chunksAux b l.length l

/-- The sampling gate of `ExtractorXML._run`: one uniform draw per example,
in program order starting at stream position `i`; an example is kept exactly
when `proba <= inclusion_probability`. Returns the kept examples in order. -/
def gate (p : ℚ) (draws : Nat → ℚ) : Nat → List String → List String
  | _, [] => []
  | i, e :: es =>
    if draws i ≤ p then e :: gate p draws (i + 1) es else gate p draws (i + 1) es

/-- The per-batch loop body of `ExtractorXML._run`: for each batch, gate every
example returned by every file of the batch, dispatch one `save_task` per kept
example, and add `len(saving_results)` to the running count. Returns the full
list of dispatched write payloads together with `num_saved_examples`. -/
def runChunksAux (p : ℚ) (draws : Nat → ℚ) :
    List (List (List String)) → Nat → List String × Nat
  | [], _ => ([], 0)
  | c :: cs, i =>
    let ex := c.flatten
    let written := gate p draws i ex
    let rest := runChunksAux p draws cs (i + ex.length)
    (written ++ rest.1, written.length + rest.2)

/-- `ExtractorXML._run` for one subset, with the distributed queue modelled
away: `fileResults` is the list of per-file results of
`examples_from_file_task`, in scanner order. The first component is the list
of examples handed to `save_task` (the lines appended to the destination
file); the second is the returned `num_saved_examples`. -/
def _run (fileResults : List (List String)) (batch_size : Nat)
    (inclusion_probability : ℚ) (draws : Nat → ℚ) : List String × Nat :=
  runChunksAux inclusion_probability draws (chunks batch_size fileResults) 0

/-- End-to-end pipeline for one subset: run `examples_from_file_task` on the
matched elements of every source file, then schedule, gate and collect the
lines written to the subset's destination file. -/
def subsetLines (segment : String → List String) (files : List (List Element))
    (punkt keep_xml remove_tail : Bool) (min_length : Nat) (batch_size : Nat)
    (p : ℚ) (draws : Nat → ℚ) : List String :=
  (_run
    (files.map fun els =>
      examples_from_file_task segment els punkt keep_xml remove_tail min_length)
    batch_size p draws).1

/-- A filesystem path, as its list of components. -/
abbrev FsPath := List String

/-- The fragment of filesystem state `ExtractorXML.__init__` touches: the set
of existing directories and the set of existing files. -/
structure FS where
  dirs : List FsPath
  files : List FsPath
deriving DecidableEq

/-- Model of `pathlib.Path.exists`: the path is a directory or a file. -/
def FS.existsPath (fs : FS) (p : FsPath) : Bool :=
  decide (p ∈ fs.dirs) || decide (p ∈ fs.files)

/-- A well-formed filesystem: every file and every non-root directory lives
in an existing parent directory. -/
def FS.WF (fs : FS) : Prop :=
  (∀ p ∈ fs.files, p.dropLast ∈ fs.dirs) ∧
    ∀ p ∈ fs.dirs, p ≠ [] → p.dropLast ∈ fs.dirs

instance (fs : FS) : Decidable fs.WF :=
  inferInstanceAs (Decidable ((∀ p ∈ fs.files, p.dropLast ∈ fs.dirs) ∧
    ∀ p ∈ fs.dirs, p ≠ [] → p.dropLast ∈ fs.dirs))

/-- The four `ValueError`s `ExtractorXML.__init__` can raise, in source
order. -/
inductive InitError where
  | destExists
  | parentMissing
  | destFilesExist
  | missingSubset
deriving DecidableEq

instance : DecidableEq (Except InitError FsPath) := fun x y =>
  match x, y with
  | .error a, .error b => decidable_of_iff (a = b) (by simp)
  | .ok a, .ok b => decidable_of_iff (a = b) (by simp)
  | .error _, .ok _ => isFalse (by simp)
  | .ok _, .error _ => isFalse (by simp)

/-- Outcome of `ExtractorXML.__init__`: the filesystem after the constructor
ran (mutations persist even when an exception is raised) and either the
resolved destination directory or the raised error. -/
structure InitResult where
  fs : FS
  result : Except InitError FsPath
deriving DecidableEq

/-- Default destination `/data/text/<corpus basename>` when `destination_dir`
is the empty string, otherwise the given path. -/
def resolveDest (corpus : FsPath) : Option FsPath → FsPath
  | none => ["data", "text", corpus.getLastD ""]
  | some d => d

/-- `ExtractorXML.__init__` from `extract.py`: resolve the destination,
check it does not exist, check its parent exists, create it, then check no
per-subset destination file exists and that every subset directory exists
under the corpus root. -/
def ExtractorXML_init (fs : FS) (corpus : FsPath)
    (destination_dir : Option FsPath) (subsets : List String) : InitResult :=
  let dest := resolveDest corpus destination_dir
  if fs.existsPath dest then ⟨fs, .error .destExists⟩
  else if !fs.existsPath dest.dropLast then ⟨fs, .error .parentMissing⟩
  else
    let fs1 : FS := ⟨dest :: fs.dirs, fs.files⟩
    let destFiles := subsets.map fun s => dest ++ [s ++ ".txt"]
    if destFiles.any fs1.existsPath then ⟨fs1, .error .destFilesExist⟩
    else if !(subsets.all fun s => fs1.existsPath (corpus ++ [s])) then
      ⟨fs1, .error .missingSubset⟩
    else ⟨fs1, .ok dest⟩

/-! Scheduler lemmas: the gate consumes one draw per example in program
order, so batching only regroups the work. -/

lemma gate_append (p : ℚ) (draws : Nat → ℚ) (xs ys : List String) :
    ∀ i, gate p draws i (xs ++ ys)
      = gate p draws i xs ++ gate p draws (i + xs.length) ys := by
  induction xs with
  | nil => intro i; simp [gate]
  | cons x xs ih =>
    intro i
    have harith : i + (xs.length + 1) = (i + 1) + xs.length := by omega
    simp only [List.cons_append, gate, List.length_cons, harith]
    split <;> simp [ih (i + 1)]

lemma gate_subset (p : ℚ) (draws : Nat → ℚ) :
    ∀ (i : Nat) (xs : List String) (x : String), x ∈ gate p draws i xs → x ∈ xs := by
  intro i xs
  induction xs generalizing i with
  | nil => intro x hx; simpa [gate] using hx
  | cons e es ih =>
    intro x hx
    simp only [gate] at hx
    split at hx
    · rcases List.mem_cons.1 hx with h | h
      · exact h ▸ List.mem_cons_self _ _
      · exact List.mem_cons_of_mem _ (ih _ _ h)
    · exact List.mem_cons_of_mem _ (ih _ _ hx)

lemma gate_all (p : ℚ) (draws : Nat → ℚ) (hd : ∀ i, draws i ≤ p) :
    ∀ (i : Nat) (xs : List String), gate p draws i xs = xs := by
  intro i xs
  induction xs generalizing i with
  | nil => rfl
  | cons e es ih => simp [gate, hd i, ih]

lemma gate_none (p : ℚ) (draws : Nat → ℚ) (hd : ∀ i, ¬ draws i ≤ p) :
    ∀ (i : Nat) (xs : List String), gate p draws i xs = [] := by
  intro i xs
  induction xs generalizing i with
  | nil => rfl
  | cons e es ih => simp [gate, hd i, ih]

lemma runChunksAux_eq (p : ℚ) (draws : Nat → ℚ) :
    ∀ (cs : List (List (List String))) (i : Nat),
      runChunksAux p draws cs i
        = (gate p draws i (cs.map List.flatten).flatten,
           (gate p draws i (cs.map List.flatten).flatten).length) := by
  intro cs
  induction cs with
  | nil => intro i; simp [runChunksAux, gate]
  | cons c cs ih =>
    intro i
    simp only [runChunksAux, ih, List.map_cons, List.flatten_cons, gate_append,
      List.length_append]

lemma chunksAux_congr {α : Type} (b : Nat) :
    ∀ (n m : Nat) (l : List α), l.length ≤ n → l.length ≤ m →
      chunksAux b n l = chunksAux b m l := by
  intro n
  induction n with
  | zero =>
    intro m l hn _
    cases l with
    | nil => cases m <;> rfl
    | cons x xs => simp at hn
  | succ n ih =>
    intro m l hn hm
    cases l with
    | nil => cases m <;> rfl
    | cons x xs =>
      cases m with
      | zero => simp at hm
      | succ m =>
        simp only [chunksAux]
        by_cases hb : b = 0
        · simp [hb]
        · rw [if_neg hb, if_neg hb]
          have hb1 : 1 ≤ b := Nat.one_le_iff_ne_zero.2 hb
          have h1 : ((x :: xs).drop b).length = (x :: xs).length - b :=
            List.length_drop _ _
          simp only [List.length_cons] at h1 hn hm
          congr 1
          exact ih _ _ (by omega) (by omega)

lemma chunks_cons {α : Type} (b : Nat) (hb : 1 ≤ b) (x : α) (xs : List α) :
    chunks b (x :: xs) = (x :: xs).take b :: chunks b ((x :: xs).drop b) := by
  unfold chunks
  simp only [List.length_cons, chunksAux]
  rw [if_neg (by omega)]
  congr 1
  have h1 : ((x :: xs).drop b).length = (x :: xs).length - b := List.length_drop _ _
  simp only [List.length_cons] at h1
  exact chunksAux_congr b xs.length _ _ (by omega) le_rfl

lemma chunks_zero {α : Type} (l : List α) : chunks 0 l = [] := by
  cases l <;> rfl

lemma chunks_flatten_aux {α : Type} (b : Nat) (hb : 1 ≤ b) :
    ∀ (n : Nat) (l : List α), l.length ≤ n → (chunks b l).flatten = l := by
  intro n
  induction n with
  | zero =>
    intro l h
    cases l with
    | nil => rfl
    | cons x xs => simp at h
  | succ n ih =>
    intro l h
    cases l with
    | nil => rfl
    | cons x xs =>
      have hlen : ((x :: xs).drop b).length ≤ n := by
        simp only [List.length_drop, List.length_cons]
        simp only [List.length_cons] at h
        omega
      rw [chunks_cons b hb, List.flatten_cons, ih _ hlen]
      exact List.take_append_drop b (x :: xs)

lemma chunks_flatten {α : Type} (b : Nat) (hb : 1 ≤ b) (l : List α) :
    (chunks b l).flatten = l :=
  chunks_flatten_aux b hb l.length l le_rfl

lemma flatten_map_flatten {α : Type} :
    ∀ cs : List (List (List α)), (cs.map List.flatten).flatten = cs.flatten.flatten := by
  intro cs
  induction cs with
  | nil => rfl
  | cons c cs ih => simp [List.flatten_cons, ih]

lemma _run_eq (fileResults : List (List String)) (b : Nat) (hb : 1 ≤ b)
    (p : ℚ) (draws : Nat → ℚ) :
    _run fileResults b p draws
      = (gate p draws 0 fileResults.flatten,
         (gate p draws 0 fileResults.flatten).length) := by
  unfold _run
  rw [runChunksAux_eq, flatten_map_flatten, chunks_flatten b hb]

/-- Constant draw stream returning `0`, a value `random.random()` can
return. -/
def zeroDraws : Nat → ℚ := fun _ => 0

/-- Constant draw stream returning `1/2`. -/
def halfDraws : Nat → ℚ := fun _ => 1 / 2

/-- Trivial sentence segmenter used for concrete runs with `punkt = False`,
where the segmenter is never consulted. -/
def idSegment : String → List String := fun s => [s]

/-- Claim C3, counterexample: with `inclusion_probability = 0.0` and a draw
stream returning exactly `0.0` — a value `random.random()` can return — the
`proba <= inclusion_probability` test passes, so the single extracted example
is written and the subset count is `1`, not `0`. -/
theorem c3_counterexample :
    (_run [["x"]] 1 0 zeroDraws).1 = ["x"] ∧ (_run [["x"]] 1 0 zeroDraws).2 = 1 := by
  decide

/-- Claim C3 (amended): with `inclusion_probability = 0.0`, for every corpus
and every sequence of per-example draws that are all strictly positive, zero
examples are written to the destination file and the accumulated count is
zero, regardless of extraction volume. (The gate keeps an example when
`proba <= inclusion_probability`, so only a draw of exactly `0.0` can slip
through at probability zero.) -/
theorem c3_zero_probability (fileResults : List (List String)) (b : Nat)
    (draws : Nat → ℚ) (hd : ∀ i, 0 < draws i) :
    (_run fileResults b 0 draws).1 = [] ∧ (_run fileResults b 0 draws).2 = 0 := by
  unfold _run
  rw [runChunksAux_eq, gate_none 0 draws (fun i => not_le.2 (hd i))]
  exact ⟨rfl, rfl⟩

/-- Witness for `c3_zero_probability` at a concrete input. -/
theorem c3_zero_probability_witness : (_run [["x"]] 1 0 halfDraws).1 = [] :=
  (c3_zero_probability [["x"]] 1 halfDraws (fun _ => by norm_num [halfDraws])).1

/-- Claim C5 (confirmed): with `inclusion_probability = 1.0` and every draw in
`[0, 1)` as `random.random()` guarantees, every example that survives
extraction and the length filter is dispatched as a write unit, in order, and
the count returned for the subset equals the number of such examples: the
sampling gate drops nothing. -/
theorem c5_probability_one (fileResults : List (List String)) (b : Nat)
    (draws : Nat → ℚ) (hb : 1 ≤ b) (hd : ∀ i, draws i < 1) :
    (_run fileResults b 1 draws).1 = fileResults.flatten ∧
      (_run fileResults b 1 draws).2 = fileResults.flatten.length := by
  rw [_run_eq fileResults b hb 1 draws,
    gate_all 1 draws (fun i => le_of_lt (hd i))]
  exact ⟨rfl, rfl⟩

/-- Witness for `c5_probability_one` at a concrete input. -/
theorem c5_probability_one_witness :
    (_run [["x"], ["y", "z"]] 1 1 halfDraws).1 = ["x", "y", "z"] := by
  have h := (c5_probability_one [["x"], ["y", "z"]] 1 halfDraws (by decide)
    (fun _ => by norm_num [halfDraws])).1
  simpa using h

/-- Claim C6 (confirmed): holding the per-example draw stream fixed, running
the scheduler over the same per-file results with any two positive batch
sizes dispatches exactly the same list of written examples — batching only
regroups concurrent work, it never changes which examples are written. -/
theorem c6_batch_size_invariant (fileResults : List (List String))
    (b1 b2 : Nat) (p : ℚ) (draws : Nat → ℚ) (h1 : 1 ≤ b1) (h2 : 1 ≤ b2) :
    (_run fileResults b1 p draws).1 = (_run fileResults b2 p draws).1 := by
  rw [_run_eq fileResults b1 h1 p draws, _run_eq fileResults b2 h2 p draws]

/-- Witness for `c6_batch_size_invariant`: batch size 1 versus batch size 100
over the same three files. -/
theorem c6_batch_size_invariant_witness :
    (_run [["x"], ["y"], ["z"]] 1 (1 / 2) halfDraws).1
      = (_run [["x"], ["y"], ["z"]] 100 (1 / 2) halfDraws).1 :=
  c6_batch_size_invariant [["x"], ["y"], ["z"]] 1 100 (1 / 2) halfDraws
    (by decide) (by decide)

/-! Extraction-layer lemmas and claims. -/

lemma clearTail_withTail (e : Element) (t : Option String) :
    clearTail (e.withTail t) = clearTail e := by
  cases e
  rfl

/-- Claim C7 (confirmed): with `remove_tail = True`, every matched element's
tail is cleared before text extraction, so the output of
`examples_from_file_task` — inner text, sentences or serialized markup — does
not depend on the matched elements' tail text at all: replacing each tail by
an arbitrary one (`retail`) leaves the output unchanged. In particular no
element's tail text leaks into the extracted text or markup. -/
theorem c7_remove_tail_excludes_tail (segment : String → List String)
    (elements : List Element) (retail : Element → Option String)
    (punkt keep_xml : Bool) (min_length : Nat) :
    examples_from_file_task segment
        (elements.map fun e => e.withTail (retail e)) punkt keep_xml true min_length
      = examples_from_file_task segment elements punkt keep_xml true min_length := by
  unfold examples_from_file_task
  simp only [if_true]
  rw [List.map_map]
  have hmap : elements.map (clearTail ∘ fun e => e.withTail (retail e))
      = elements.map clearTail :=
    List.map_congr_left fun e _ => clearTail_withTail e (retail e)
  rw [hmap]

lemma filter_pass_iff (s : String) (m : Nat) : _filter s m ≠ "" ↔ m < s.length := by
  constructor
  · intro h
    by_contra hn
    unfold _filter at h
    rw [if_neg hn] at h
    exact h rfl
  · intro h
    unfold _filter
    rw [if_pos h]
    intro hc
    rw [hc] at h
    have h0 : ("" : String).length = 0 := rfl
    omega

/-- Claim C9 (confirmed): in keep-markup mode the filter is evaluated on the
flattened inner text while the emitted example is the serialized markup: the
extracted list is exactly the serialization of those matched elements whose
inner text is strictly longer than `min_length`. -/
theorem c9_keep_xml_filters_on_innertext (segment : String → List String)
    (elements : List Element) (punkt : Bool) (min_length : Nat) :
    _extract_text_from_elements segment elements punkt true min_length
      = (elements.filter fun e => decide (min_length < (innertext e).length)).map
          tostring := by
  unfold _extract_text_from_elements
  rw [if_pos rfl]
  dsimp only
  induction elements with
  | nil => rfl
  | cons e es ih =>
    simp only [List.foldr_cons]
    rw [ih, List.filter_cons]
    by_cases h : min_length < (innertext e).length
    · have hf : _filter (innertext e) min_length ≠ "" := (filter_pass_iff _ _).2 h
      rw [if_pos hf]
      simp [h]
    · have hf : ¬ _filter (innertext e) min_length ≠ "" := fun hc =>
        h ((filter_pass_iff _ _).1 hc)
      rw [if_neg hf]
      simp [h]

mutual
theorem innertext_length_le : ∀ e : Element,
    (innertext e).length + (e.tail.getD "").length ≤ (tostring e).length
  | .mk tag text children tail => by
    have h := innertextList_length_le children
    simp only [innertext, tostring, Element.tail, String.length_append]
    omega

theorem innertextList_length_le : ∀ l : List Element,
    (innertextList l).length ≤ (tostringList l).length
  | [] => le_rfl
  | c :: cs => by
    have h1 := innertext_length_le c
    have h2 := innertextList_length_le cs
    simp only [innertextList, tostringList, String.length_append]
    omega
end

/-- Every string `_extract_text_from_elements` emits is strictly longer than
`min_length`, measuring — in keep-markup mode — the serialized markup, whose
length dominates the filtered inner text's length. -/
lemma extract_min_length (segment : String → List String)
    (punkt keep_xml : Bool) (min_length : Nat) (elements : List Element) :
    ∀ s ∈ _extract_text_from_elements segment elements punkt keep_xml min_length,
      min_length < s.length := by
  unfold _extract_text_from_elements
  cases keep_xml with
  | true =>
    rw [if_pos rfl]
    induction elements with
    | nil => intro s hs; simp at hs
    | cons e es ih =>
      intro s hs
      simp only [List.foldr_cons] at hs
      by_cases hf : _filter (innertext e) min_length ≠ ""
      · rw [if_pos hf] at hs
        rcases List.mem_cons.1 hs with h | h
        · subst h
          have hm := (filter_pass_iff _ _).1 hf
          have hle := innertext_length_le e
          omega
        · exact ih s h
      · rw [if_neg hf] at hs
        exact ih s hs
  | false =>
    rw [if_neg (by simp)]
    induction elements with
    | nil => intro s hs; simp at hs
    | cons e es ih =>
      intro s hs
      simp only [List.foldr_cons] at hs
      cases punkt with
      | true =>
        rw [if_pos rfl] at hs
        rcases List.mem_append.1 hs with h | h
        · have := List.mem_filter.1 h
          exact (filter_pass_iff _ _).1 (of_decide_eq_true this.2)
        · exact ih s h
      | false =>
        rw [if_neg (by simp)] at hs
        by_cases hf : _filter (innertext e) min_length ≠ ""
        · rw [if_pos hf] at hs
          rcases List.mem_cons.1 hs with h | h
          · subst h
            exact (filter_pass_iff _ _).1 hf
          · exact ih s h
        · rw [if_neg hf] at hs
          exact ih s hs

/-- One `train` file whose single matched element's inner text has length 6
but collapses to `"ab"` (length 2) under `cleanup`. -/
def cexFiles : List (List Element) :=
  [[Element.mk "abstract" (some "\n\n\n\nab") [] none]]

/-- Claim C1, counterexample: the length filter runs before `cleanup`, so an
example of length 6 passes the filter with `min_char_length = 5`, is then
collapsed by `cleanup` to the 2-character line `"ab"`, and `"ab"` is written
to the destination file even though its length does not exceed 5. -/
theorem c1_counterexample :
    "ab" ∈ subsetLines idSegment cexFiles false false true 5 1 1 zeroDraws ∧
      ¬ 5 < (String.length "ab") := by
  decide

/-- Claim C1 (amended): the length filter is applied before the cleanup and
newline-stripping steps, so every line present in a destination file is the
`cleanup` image of an extracted example whose pre-cleanup character length
strictly exceeds `min_char_length`; the written line itself can be shorter. -/
theorem c1_filter_precedes_cleanup (segment : String → List String)
    (files : List (List Element)) (punkt keep_xml remove_tail : Bool)
    (min_length b : Nat) (p : ℚ) (draws : Nat → ℚ) (line : String)
    (h : line ∈ subsetLines segment files punkt keep_xml remove_tail min_length
      b p draws) :
    ∃ s, min_length < s.length ∧ line = cleanup s := by
  unfold subsetLines _run at h
  rw [runChunksAux_eq] at h
  replace h := gate_subset p draws 0 _ line h
  rw [flatten_map_flatten] at h
  cases b with
  | zero =>
    rw [chunks_zero] at h
    simp at h
  | succ b =>
    rw [chunks_flatten _ (Nat.succ_le_succ (Nat.zero_le b))] at h
    rw [List.mem_flatten] at h
    obtain ⟨fr, hfr, hline⟩ := h
    rw [List.mem_map] at hfr
    obtain ⟨els, _, rfl⟩ := hfr
    unfold examples_from_file_task _cleanup at hline
    rw [List.mem_map] at hline
    obtain ⟨s, hs, hcl⟩ := hline
    exact ⟨s, extract_min_length segment punkt keep_xml min_length _ s hs, hcl.symm⟩

/-- Witness for `c1_filter_precedes_cleanup` at the concrete counterexample
run. -/
theorem c1_filter_precedes_cleanup_witness :
    ∃ s, 5 < s.length ∧ "ab" = cleanup s :=
  c1_filter_precedes_cleanup idSegment cexFiles false false true 5 1 1 zeroDraws
    "ab" (by decide)

/-! Cleanup and append-writer lemmas. -/

lemma collapseWs_mem : ∀ (l : List Char), ∀ c ∈ collapseWs l,
    c = ' ' ∨ c.isWhitespace = false := by
  intro l
  induction l with
  | nil => intro c hc; simp [collapseWs] at hc
  | cons a as ih =>
    intro c hc
    simp only [collapseWs] at hc
    by_cases ha : a.isWhitespace = true
    · rw [if_pos ha] at hc
      cases hm : collapseWs as with
      | nil => rw [hm] at hc; simp at hc
      | cons d rest =>
        rw [hm] at hc
        dsimp only at hc
        by_cases hd : d = ' '
        · rw [if_pos hd] at hc
          exact ih c (by rw [hm]; exact hc)
        · rw [if_neg hd] at hc
          rcases List.mem_cons.1 hc with h | h
          · exact Or.inl h
          · exact ih c (by rw [hm]; exact h)
    · rw [if_neg ha] at hc
      rcases List.mem_cons.1 hc with h | h
      · subst h; exact Or.inr (by simpa using ha)
      · exact ih c h

lemma collapseWs_getLast : ∀ (l : List Char) (c : Char),
    (collapseWs l).getLast? = some c → c.isWhitespace = false := by
  intro l
  induction l with
  | nil => intro c hc; simp [collapseWs] at hc
  | cons a as ih =>
    intro c hc
    simp only [collapseWs] at hc
    by_cases ha : a.isWhitespace = true
    · rw [if_pos ha] at hc
      cases hm : collapseWs as with
      | nil => rw [hm] at hc; simp at hc
      | cons d rest =>
        rw [hm] at hc
        dsimp only at hc
        by_cases hd : d = ' '
        · rw [if_pos hd] at hc
          exact ih c (by rw [hm]; exact hc)
        · rw [if_neg hd, List.getLast?_cons_cons] at hc
          exact ih c (by rw [hm]; exact hc)
    · rw [if_neg ha] at hc
      cases hm : collapseWs as with
      | nil =>
        rw [hm] at hc
        simp only [List.getLast?_singleton, Option.some.injEq] at hc
        subst hc
        simpa using ha
      | cons d rest =>
        rw [hm, List.getLast?_cons_cons] at hc
        exact ih c (by rw [hm]; exact hc)

lemma dropWhile_head_not {p : Char → Bool} : ∀ (l : List Char) (b : Char)
    (bs : List Char), l.dropWhile p = b :: bs → p b = false := by
  intro l
  induction l with
  | nil => intro b bs h; simp at h
  | cons a as ih =>
    intro b bs h
    rw [List.dropWhile_cons] at h
    split at h
    · exact ih b bs h
    · rename_i hpa
      injection h with h1 _
      subst h1
      simpa using hpa

lemma dropWhile_of_head {p : Char → Bool} (x : List Char) (d : Char)
    (hx : x.head? = some d) (hd : p d = false) : x.dropWhile p = x := by
  cases x with
  | nil => simp at hx
  | cons a l =>
    simp only [List.head?_cons, Option.some.injEq] at hx
    subst hx
    simp [List.dropWhile_cons, hd]

lemma cleanupChars_head : ∀ (l : List Char) (a : Char) (rest : List Char),
    cleanupChars l = a :: rest → a.isWhitespace = false := by
  intro l a rest h
  unfold cleanupChars at h
  cases hm : l.dropWhile Char.isWhitespace with
  | nil => rw [hm] at h; simp [collapseWs] at h
  | cons b bs =>
    have hb : b.isWhitespace = false := dropWhile_head_not l b bs hm
    rw [hm] at h
    simp only [collapseWs, hb] at h
    rw [if_neg (by simp)] at h
    injection h with h1 _
    subst h1
    exact hb

lemma stripChars_cleanupChars (l : List Char) :
    stripChars (cleanupChars l) = cleanupChars l := by
  unfold stripChars
  cases hm : cleanupChars l with
  | nil => rfl
  | cons a rest =>
    have ha : a.isWhitespace = false := cleanupChars_head l a rest hm
    rw [dropWhile_of_head (a :: rest) a rfl ha]
    obtain ⟨d, hd⟩ : ∃ d, (a :: rest).getLast? = some d := by
      cases hg : (a :: rest).getLast? with
      | none => simp at hg
      | some d => exact ⟨d, rfl⟩
    have hdw : d.isWhitespace = false := by
      apply collapseWs_getLast (l.dropWhile Char.isWhitespace) d
      have : cleanupChars l = collapseWs (l.dropWhile Char.isWhitespace) := rfl
      rw [← this, hm]
      exact hd
    rw [dropWhile_of_head ((a :: rest).reverse) d (by rw [List.head?_reverse]; exact hd) hdw]
    exact List.reverse_reverse _

lemma pyStrip_cleanup (s : String) : pyStrip (cleanup s) = cleanup s := by
  unfold pyStrip cleanup
  congr 1
  exact stripChars_cleanupChars s.data

lemma cleanup_no_newline (s : String) : ∀ c ∈ (cleanup s).data, c ≠ '\n' := by
  intro c hc
  have hmem : c ∈ collapseWs (s.data.dropWhile Char.isWhitespace) := hc
  rcases collapseWs_mem _ c hmem with h | h
  · intro he; rw [he] at h; exact absurd h (by decide)
  · intro he; rw [he] at h; exact absurd h (by decide)

/-- Claim C8 (confirmed): every example the pipeline hands to the append
writer is a `cleanup` output, so it is already stripped and newline-free;
`save_task` therefore appends exactly the example's content followed by one
newline, and the appended line contains no embedded newline character even
when the original source text contained newlines. -/
theorem c8_append_writer_single_line (xs : List String) (e : String)
    (he : e ∈ _cleanup xs) (filecontents : String) :
    save_task e filecontents = (filecontents ++ e ++ "\n", 1)
      ∧ ∀ c ∈ e.data, c ≠ '\n' := by
  obtain ⟨s, _, rfl⟩ : ∃ s, s ∈ xs ∧ cleanup s = e := List.mem_map.1 he
  constructor
  · unfold save_task
    rw [pyStrip_cleanup]
  · exact cleanup_no_newline s

/-- Witness for `c8_append_writer_single_line` at a concrete input containing
a newline. -/
theorem c8_append_writer_single_line_witness :
    save_task (cleanup "a\nb") "FILE:" = ("FILE:" ++ cleanup "a\nb" ++ "\n", 1) :=
  (c8_append_writer_single_line ["a\nb"] (cleanup "a\nb") (by decide) "FILE:").1

/-! Constructor-time validation claims. -/

/-- Claim C4 (confirmed): when the resolved destination directory already
exists, the constructor raises the already-exists error as its very first
check and performs no filesystem mutation. -/
theorem c4_destination_exists_no_mutation (fs : FS) (corpus : FsPath)
    (dd : Option FsPath) (subsets : List String)
    (h : fs.existsPath (resolveDest corpus dd) = true) :
    ExtractorXML_init fs corpus dd subsets = ⟨fs, .error .destExists⟩ := by
  simp only [ExtractorXML_init]
  rw [if_pos h]

/-- Witness for `c4_destination_exists_no_mutation` at a concrete input. -/
theorem c4_destination_exists_no_mutation_witness :
    ExtractorXML_init ⟨[[], ["d"]], []⟩ ["c"] (some ["d"]) ["train"]
      = ⟨⟨[[], ["d"]], []⟩, .error .destExists⟩ :=
  c4_destination_exists_no_mutation ⟨[[], ["d"]], []⟩ ["c"] (some ["d"])
    ["train"] (by decide)

/-- On a well-formed filesystem, none of the per-subset destination files can
exist right after the destination directory — absent until then — was
created: each such file's parent is the freshly created directory. -/
lemma dest_files_fresh (fs : FS) (hwf : fs.WF) (dest : FsPath)
    (hne : fs.existsPath dest = false) (subsets : List String) :
    (subsets.map fun s => dest ++ [s ++ ".txt"]).any
      (FS.existsPath ⟨dest :: fs.dirs, fs.files⟩) = false := by
  rw [List.any_eq_false]
  intro x hx
  rw [List.mem_map] at hx
  obtain ⟨s, _, rfl⟩ := hx
  have hdirs : dest ∉ fs.dirs ∧ dest ∉ fs.files := by
    unfold FS.existsPath at hne
    simp only [Bool.or_eq_false_iff, decide_eq_false_iff_not] at hne
    exact hne
  unfold FS.existsPath
  simp only [Bool.or_eq_true, decide_eq_true_eq, not_or]
  constructor
  · intro hmem
    rcases List.mem_cons.1 hmem with h | h
    · have := congrArg List.length h
      simp at this
    · have hne2 : dest ++ [s ++ ".txt"] ≠ [] := by simp
      have hpar := hwf.2 _ h hne2
      rw [List.dropLast_concat] at hpar
      exact hdirs.1 hpar
  · intro hmem
    have hpar := hwf.1 _ hmem
    rw [List.dropLast_concat] at hpar
    exact hdirs.1 hpar

/-- Claim C10 (confirmed): on any well-formed filesystem the constructor's
check that a per-subset destination file already exists is unreachable — on
every path reaching it the destination directory has just been created empty,
so the `destFilesExist` error is never raised. -/
theorem c10_dest_file_check_unreachable (fs : FS) (corpus : FsPath)
    (dd : Option FsPath) (subsets : List String) (hwf : fs.WF) :
    (ExtractorXML_init fs corpus dd subsets).result
      ≠ Except.error InitError.destFilesExist := by
  simp only [ExtractorXML_init]
  by_cases h1 : fs.existsPath (resolveDest corpus dd) = true
  · rw [if_pos h1]
    simp
  · rw [if_neg h1]
    have hne : fs.existsPath (resolveDest corpus dd) = false :=
      Bool.not_eq_true _ ▸ h1
    by_cases h2 : (!fs.existsPath (resolveDest corpus dd).dropLast) = true
    · rw [if_pos h2]
      simp
    · rw [if_neg h2]
      rw [if_neg (by rw [dest_files_fresh fs hwf _ hne subsets]; simp)]
      split <;> simp

/-- Witness for `c10_dest_file_check_unreachable` at a concrete input. -/
theorem c10_dest_file_check_unreachable_witness :
    (ExtractorXML_init ⟨[[]], []⟩ ["c"] (some ["d"]) ["train"]).result
      ≠ Except.error InitError.destFilesExist :=
  c10_dest_file_check_unreachable ⟨[[]], []⟩ ["c"] (some ["d"]) ["train"]
    (by decide)

/-- Claim C2, counterexample: on the filesystem whose only directory is the
root, with corpus `c` lacking its `train` subdirectory and destination `d`,
the constructor does raise the missing-subset error — but only after it has
created the destination directory: the resulting filesystem differs from the
initial one. -/
theorem c2_counterexample :
    (ExtractorXML_init ⟨[[]], []⟩ ["c"] (some ["d"]) ["train"]).result
        = Except.error InitError.missingSubset
      ∧ (ExtractorXML_init ⟨[[]], []⟩ ["c"] (some ["d"]) ["train"]).fs
        ≠ (⟨[[]], []⟩ : FS) := by
  decide

/-- Claim C2 (amended): on a well-formed filesystem where the destination is
absent, its parent exists, and some configured subset directory is missing
from the corpus (and does not coincide with the destination itself), the
constructor raises the missing-subset error — but only after creating the
destination directory, so the filesystem is mutated by exactly that `mkdir`. -/
theorem c2_missing_subset_after_mkdir (fs : FS) (corpus : FsPath)
    (dd : Option FsPath) (subsets : List String) (hwf : fs.WF)
    (h1 : fs.existsPath (resolveDest corpus dd) = false)
    (h2 : fs.existsPath (resolveDest corpus dd).dropLast = true)
    (s : String) (hs : s ∈ subsets)
    (h3 : fs.existsPath (corpus ++ [s]) = false)
    (h4 : corpus ++ [s] ≠ resolveDest corpus dd) :
    ExtractorXML_init fs corpus dd subsets
        = ⟨⟨resolveDest corpus dd :: fs.dirs, fs.files⟩, .error .missingSubset⟩
      ∧ (ExtractorXML_init fs corpus dd subsets).fs ≠ fs := by
  have hmem3 : corpus ++ [s] ∉ fs.dirs ∧ corpus ++ [s] ∉ fs.files := by
    unfold FS.existsPath at h3
    simp only [Bool.or_eq_false_iff, decide_eq_false_iff_not] at h3
    exact h3
  have hall : (subsets.all fun t =>
      FS.existsPath ⟨resolveDest corpus dd :: fs.dirs, fs.files⟩ (corpus ++ [t]))
        = false := by
    rw [List.all_eq_false]
    refine ⟨s, hs, ?_⟩
    unfold FS.existsPath
    simp only [Bool.or_eq_true, decide_eq_true_eq, List.mem_cons, not_or]
    push_neg
    exact ⟨⟨h4, hmem3.1⟩, hmem3.2⟩
  have hmain : ExtractorXML_init fs corpus dd subsets
      = ⟨⟨resolveDest corpus dd :: fs.dirs, fs.files⟩, .error .missingSubset⟩ := by
    simp only [ExtractorXML_init]
    rw [if_neg (by rw [h1]; simp), if_neg (by rw [h2]; simp),
      if_neg (by rw [dest_files_fresh fs hwf _ h1 subsets]; simp),
      if_pos (by rw [hall]; simp)]
  refine ⟨hmain, ?_⟩
  rw [hmain]
  intro hcontra
  have hlen : (resolveDest corpus dd :: fs.dirs).length = fs.dirs.length :=
    congrArg (fun z => z.dirs.length) hcontra
  simp at hlen

/-- Witness for `c2_missing_subset_after_mkdir` at the counterexample's
concrete input. -/
theorem c2_missing_subset_after_mkdir_witness :
    ExtractorXML_init ⟨[[]], []⟩ ["c"] (some ["d"]) ["train"]
      = ⟨⟨[["d"], []], []⟩, .error .missingSubset⟩ :=
  (c2_missing_subset_after_mkdir ⟨[[]], []⟩ ["c"] (some ["d"]) ["train"]
    (by decide) (by decide) (by decide) "train" (by decide) (by decide)
    (by decide)).1
